import Mathlib

/-!
Verification of the URL-expansion tool in reflection.py.

The program is embedded shallowly: Python strings become lists of
characters, Python dicts (which preserve insertion order) become
association lists, and the relevant pieces of urllib.parse are modelled
from CPython's urllib/parse.py since the script delegates its URL
handling to that library.  File writes are modelled by returning the
written lines; the concurrent run is modelled by the per-chunk outputs
in chunk order, which fixes the multiset of written lines.
-/

set_option maxRecDepth 8000
set_option linter.unusedVariables false

namespace XSSRecon

/-- Python strings are modelled as lists of characters. -/
abbrev Str := List Char

/-- Embed a Lean string literal into the model. -/
def str (s : String) : Str := s.data

/-- Python str.split with a one-character separator and no maxsplit:
splitting the empty string yields one empty field. -/
def pySplitAll (sep : Char) : Str → List Str
  | [] => [[]]
  | c :: rest =>
    let r := pySplitAll sep rest
    if c = sep then [] :: r else (c :: r.headD []) :: r.tail

/-- Python str.split(sep, 1): split at the first separator occurrence
only, returning the part before it and, when present, the part after. -/
def pySplit1 (sep : Char) : Str → Str × Option Str
  | [] => ([], none)
  | c :: rest =>
    if c = sep then ([], some rest)
    else
      let r := pySplit1 sep rest
      (c :: r.1, r.2)

/-- Python sep.join(parts). -/
def joinSep (sep : Str) : List Str → Str
  | [] => []
  | [x] => x
  | x :: y :: rest => x ++ sep ++ joinSep sep (y :: rest)

/-- Dictionary lookup on an insertion-ordered association list. -/
def alGet {α : Type} : List (Str × α) → Str → Option α
  | [], _ => none
  | kv :: rest, k => if kv.1 = k then some kv.2 else alGet rest k

/-- Python dict assignment d[k] = v on an insertion-ordered association
list: overwrite the value at the existing entry, else append a new one. -/
def alSet {α : Type} : List (Str × α) → Str → α → List (Str × α)
  | [], k, v => [(k, v)]
  | kv :: rest, k, v => if kv.1 = k then (k, v) :: rest else kv :: alSet rest k v

/-- Python dict.setdefault(k, list()).append(v), as parse_qs uses it. -/
def alAppendVal : List (Str × List Str) → Str → Str → List (Str × List Str)
  | [], k, v => [(k, [v])]
  | kv :: rest, k, v =>
    if kv.1 = k then (kv.1, kv.2 ++ [v]) :: rest else kv :: alAppendVal rest k v

/-- Python str.find: index of the first occurrence, if any. -/
def pyFind (c : Char) (s : Str) : Option Nat := s.findIdx? (· == c)

/-- Python str.find(c, start): first occurrence at index at least start. -/
def pyFindFrom (c : Char) (s : Str) (start : Nat) : Option Nat :=
  ((s.drop start).findIdx? (· == c)).map (· + start)

/-- Python str.rfind: index of the last occurrence, if any. -/
def pyRfind (c : Char) (s : Str) : Option Nat :=
  (pyFind c s.reverse).map (fun i => s.length - 1 - i)

/-- Membership of a character in Python string.hexdigits. -/
def isHexDigit (c : Char) : Bool :=
  if (48 ≤ c.toNat ∧ c.toNat ≤ 57) ∨ (97 ≤ c.toNat ∧ c.toNat ≤ 102) ∨
      (65 ≤ c.toNat ∧ c.toNat ≤ 70) then true else false

/-- Numeric value of a hexadecimal digit. -/
def hexVal (c : Char) : Nat :=
  if 48 ≤ c.toNat ∧ c.toNat ≤ 57 then c.toNat - 48
  else if 97 ≤ c.toNat then c.toNat - 87
  else c.toNat - 55

/-- The Unicode replacement character U+FFFD. -/
def repChar : Char := Char.ofNat 0xFFFD

/-- UTF-8 continuation byte test. -/
def isCont (b : Nat) : Bool := if 0x80 ≤ b ∧ b < 0xC0 then true else false

/-- UTF-8 decoding of a byte sequence with the replace error handler
(bytes.decode with errors set to replace), used by urllib unquote.
Invalid maximal subparts each yield one replacement character.  The
first argument is fuel bounding the recursion by the list length. -/
def utf8DecodeGo : Nat → List Nat → Str
  | 0, _ => []
  | _, [] => []
  | fuel + 1, b :: rest =>
    if b < 0x80 then Char.ofNat b :: utf8DecodeGo fuel rest
    else if b < 0xC2 then repChar :: utf8DecodeGo fuel rest
    else if b < 0xE0 then
      match rest with
      | b2 :: rest2 =>
        if isCont b2 then
          Char.ofNat ((b - 0xC0) * 0x40 + (b2 - 0x80)) :: utf8DecodeGo fuel rest2
        else repChar :: utf8DecodeGo fuel rest
      | [] => [repChar]
    else if b < 0xF0 then
      match rest with
      | b2 :: rest2 =>
        if (if b = 0xE0 then 0xA0 ≤ b2 ∧ b2 < 0xC0
            else if b = 0xED then 0x80 ≤ b2 ∧ b2 < 0xA0
            else isCont b2 = true) then
          match rest2 with
          | b3 :: rest3 =>
            if isCont b3 then
              Char.ofNat ((b - 0xE0) * 0x1000 + (b2 - 0x80) * 0x40 + (b3 - 0x80)) ::
                utf8DecodeGo fuel rest3
            else repChar :: utf8DecodeGo fuel rest2
          | [] => [repChar]
        else repChar :: utf8DecodeGo fuel rest
      | [] => [repChar]
    else if b < 0xF5 then
      match rest with
      | b2 :: rest2 =>
        if (if b = 0xF0 then 0x90 ≤ b2 ∧ b2 < 0xC0
            else if b = 0xF4 then 0x80 ≤ b2 ∧ b2 < 0x90
            else isCont b2 = true) then
          match rest2 with
          | b3 :: rest3 =>
            if isCont b3 then
              match rest3 with
              | b4 :: rest4 =>
                if isCont b4 then
                  Char.ofNat ((b - 0xF0) * 0x40000 + (b2 - 0x80) * 0x1000 +
                      (b3 - 0x80) * 0x40 + (b4 - 0x80)) :: utf8DecodeGo fuel rest4
                else repChar :: utf8DecodeGo fuel rest3
              | [] => [repChar]
            else repChar :: utf8DecodeGo fuel rest2
          | [] => [repChar]
        else repChar :: utf8DecodeGo fuel rest
      | [] => [repChar]
    else repChar :: utf8DecodeGo fuel rest

/-- UTF-8 decoding with replacement, entry point. -/
def utf8DecodeReplace (bs : List Nat) : Str := utf8DecodeGo bs.length bs

/-- Modelled from urllib.parse.unquote with utf-8 encoding and the
replace error handler.  A percent sign followed by two hex digits
contributes one byte; maximal runs of such bytes are UTF-8 decoded
(splitting the byte stream at literal ASCII characters is
decode-equivalent to CPython grouping whole ASCII runs, because an
ASCII byte always terminates a multi-byte sequence).  A percent sign
not followed by two hex digits is literal.  The second argument
accumulates the pending escape bytes. -/
def unquoteGo : Nat → Str → List Nat → Str
  | 0, _, pend => utf8DecodeReplace pend
  | _, [], pend => utf8DecodeReplace pend
  | fuel + 1, c :: rest, pend =>
    if c = '%' then
      match rest with
      | h1 :: h2 :: rest2 =>
        if isHexDigit h1 && isHexDigit h2 then
          unquoteGo fuel rest2 (pend ++ [hexVal h1 * 16 + hexVal h2])
        else utf8DecodeReplace pend ++ '%' :: unquoteGo fuel rest []
      | _ => utf8DecodeReplace pend ++ '%' :: unquoteGo fuel rest []
    else utf8DecodeReplace pend ++ c :: unquoteGo fuel rest []

/-- Python urllib.parse.unquote with default arguments.  The fuel is
the input length, which bounds the recursion depth. -/
def unquotePy (s : Str) : Str := unquoteGo s.length s []

/-- The plus-to-space replacement parse_qsl applies before unquoting. -/
def plusToSpace (s : Str) : Str := s.map fun c => if c = '+' then ' ' else c

/-- The literal placeholder token the program writes. -/
def payloadStr : Str := str "{payload}"

/-- Modelled from urllib.parse.parse_qsl with default arguments
(keep_blank_values False, strict_parsing False, separator the
ampersand): empty fields are skipped, fields without an equals sign or
with an empty value are skipped, names and values have plus replaced by
space and are then unquoted. -/
def parse_qsl (qs : Str) : List (Str × Str) :=
  (pySplitAll '&' qs).filterMap fun nv =>
    if nv = [] then none
    else
      match pySplit1 '=' nv with
      | (_, none) => none
      | (name, some value) =>
        if value = [] then none
        else some (unquotePy (plusToSpace name), unquotePy (plusToSpace value))

/-- Modelled from urllib.parse.parse_qs: group the parse_qsl pairs into
an insertion-ordered dict of value lists. -/
def parse_qs (qs : Str) : List (Str × List Str) :=
  (parse_qsl qs).foldl (fun d kv => alAppendVal d kv.1 kv.2) []

/-- Result of urllib.parse.urlsplit. -/
structure SplitParts where
  scheme : Str
  netloc : Str
  path : Str
  query : Str
  fragment : Str
deriving DecidableEq

/-- Result of urllib.parse.urlparse. -/
structure ParseParts where
  scheme : Str
  netloc : Str
  path : Str
  params : Str
  query : Str
  fragment : Str
deriving DecidableEq

/-- Membership of a character in urllib scheme_chars. -/
def isSchemeChar (c : Char) : Bool :=
  if c.isAlphanum ∨ c = '+' ∨ c = '-' ∨ c = '.' then true else false

/-- C0 control characters and space, which urlsplit strips from the left. -/
def isC0OrSpace (c : Char) : Bool := if c.toNat ≤ 32 then true else false

/-- Tab, carriage return and newline, which urlsplit removes everywhere. -/
def isUnsafeUrlChar (c : Char) : Bool :=
  if c = '\t' ∨ c = '\r' ∨ c = '\n' then true else false

/-- An ASCII letter, the test on the first scheme character. -/
def isAsciiAlpha (c : Char) : Bool :=
  if c.toNat < 128 ∧ c.isAlpha = true then true else false

/-- The scheme-detection step of urlsplit: a colon at a positive index
preceded by an ASCII letter and scheme characters splits off the
lowercased scheme. -/
def splitScheme (url : Str) : Str × Str :=
  match pyFind ':' url with
  | some i =>
    if 0 < i ∧ isAsciiAlpha (url.headD ' ') = true ∧
        ((url.drop 1).take (i - 1)).all isSchemeChar = true then
      ((url.take i).map Char.toLower, url.drop (i + 1))
    else ([], url)
  | none => ([], url)

/-- Characters ending the netloc in _splitnetloc. -/
def notNetlocEnd (c : Char) : Bool := if c = '/' ∨ c = '?' ∨ c = '#' then false else true

/-- Modelled from urllib.parse._splitnetloc applied after the leading
double slash: the netloc runs to the first slash, question mark or
hash. -/
def splitNetloc (tail2 : Str) : Str × Str :=
  (tail2.takeWhile notNetlocEnd, tail2.dropWhile notNetlocEnd)

/-- The fragment and query splits at the end of urlsplit, fragment
first, each splitting at the first occurrence. -/
def splitRest (scheme netloc url : Str) : SplitParts :=
  let pf := pySplit1 '#' url
  let u1 := pf.1
  let frag := pf.2.getD []
  let pq := pySplit1 '?' u1
  ⟨scheme, netloc, pq.1, pq.2.getD [], frag⟩

/-- Modelled from urllib.parse.urlsplit (CPython urllib/parse.py):
strip leading C0-control-or-space, remove tab, carriage return and
newline, detect the scheme, split the netloc after a double slash
(raising ValueError on mismatched square brackets), then split off
fragment and query.  The NFKC netloc check and the bracketed-host
validation, which only reject exotic hosts, are not modelled. -/
def urlsplitPy (url0 : Str) : Except Str SplitParts :=
  let url1 := url0.dropWhile isC0OrSpace
  let url2 := url1.filter fun c => !(isUnsafeUrlChar c)
  let sr := splitScheme url2
  let scheme := sr.1
  let url3 := sr.2
  if url3.take 2 = ['/', '/'] then
    let nr := splitNetloc (url3.drop 2)
    if (nr.1.contains '[' ∧ ¬ nr.1.contains ']') ∨
        (nr.1.contains ']' ∧ ¬ nr.1.contains '[') then
      .error (str "Invalid IPv6 URL")
    else .ok (splitRest scheme nr.1 nr.2)
  else .ok (splitRest scheme [] url3)

/-- Modelled from urllib.parse._splitparams. -/
def splitParamsPy (url : Str) : Str × Str :=
  if url.contains '/' then
    match pyFindFrom ';' url ((pyRfind '/' url).getD 0) with
    | none => (url, [])
    | some i => (url.take i, url.drop (i + 1))
  else
    match pyFind ';' url with
    | none => (url, [])
    | some i => (url.take i, url.drop (i + 1))

/-- Modelled from urllib.parse.urlparse: urlsplit, then split the path
parameters off the path when it holds a semicolon. -/
def urlparsePy (url : Str) : Except Str ParseParts :=
  (urlsplitPy url).map fun s =>
    if s.path.contains ';' then
      let pr := splitParamsPy s.path
      ⟨s.scheme, s.netloc, pr.1, pr.2, s.query, s.fragment⟩
    else ⟨s.scheme, s.netloc, s.path, [], s.query, s.fragment⟩

/-- The scheme-netloc-path assembly of urllib.parse.urlunsplit, before
query and fragment are appended. -/
def unsplitBase (scheme netloc path : Str) : Str :=
  let url := if netloc ≠ [] ∨ (path ≠ [] ∧ path.take 2 = ['/', '/']) then
      '/' :: '/' :: netloc ++ (if path ≠ [] ∧ path.take 1 ≠ ['/'] then '/' :: path else path)
    else path
  if scheme ≠ [] then scheme ++ ':' :: url else url

/-- Modelled from urllib.parse.urlunsplit: assemble the base, then
append the query after a question mark when nonempty, then the
fragment after a hash when nonempty. -/
def urlunsplitPy (scheme netloc path query fragment : Str) : Str :=
  unsplitBase scheme netloc path
    ++ (if query ≠ [] then '?' :: query else [])
    ++ (if fragment ≠ [] then '#' :: fragment else [])

/-- Path with its parameters reattached, as urlunparse does. -/
def pathWithParams (path params : Str) : Str :=
  if params ≠ [] then path ++ ';' :: params else path

/-- Modelled from urllib.parse.urlunparse. -/
def urlunparsePy (p : ParseParts) : Str :=
  urlunsplitPy p.scheme p.netloc (pathWithParams p.path p.params) p.query p.fragment

/-- The production of ParseResult._replace with a new query. -/
def setQuery (p : ParseParts) (q : Str) : ParseParts := { p with query := q }

/-- The part of an unparsed URL before the question mark. -/
def baseOf (p : ParseParts) : Str := unsplitBase p.scheme p.netloc (pathWithParams p.path p.params)

/-- The fragment tail of an unparsed URL. -/
def fragTail (p : ParseParts) : Str := if p.fragment ≠ [] then '#' :: p.fragment else []

/-- Python values flowing through the query-parameter dict: parse_qs
produces lists of strings, the empty-parameter re-scan stores plain
strings. -/
inductive PyVal where
  | vstr : Str → PyVal
  | vlist : List Str → PyVal
deriving DecidableEq

/-- The serialization in save_reflected_url: a list joins with commas,
a string passes through. -/
def serializeVal : PyVal → Str
  | .vstr s => s
  | .vlist vs => joinSep [','] vs

/-- The placeholder as a dict value. -/
def payloadV : PyVal := PyVal.vstr payloadStr

/-- The query rebuilt in save_reflected_url: key equals value pairs
joined by ampersands, with no percent-encoding. -/
def serializeParams (d : List (Str × PyVal)) : Str :=
  joinSep ['&'] (d.map fun kv => kv.1 ++ '=' :: serializeVal kv.2)

/-- Modelled from save_reflected_url (reflection.py lines 35 to 48):
copy the map, overwrite the chosen parameter with the placeholder,
rebuild the query and the URL, and return the line written to the
output file.  The error case propagates a urlparse failure. -/
def save_reflected_url (original_url param_name : Str)
    (modified_params : List (Str × PyVal)) : Except Str Str :=
  let temp_params := alSet modified_params param_name payloadV
  let query := serializeParams temp_params
  (urlparsePy original_url).map fun parts => urlunparsePy (setQuery parts query)

/-- The test of the re-scan loop (reflection.py line 60): the field
split on equals signs has a single piece or an empty second piece. -/
def rescanQual (param : Str) : Bool :=
  let key_value := pySplitAll '=' param
  if key_value.length = 1 ∨ key_value.get? 1 = some [] then true else false

/-- The key stored by the re-scan loop (reflection.py line 61). -/
def rescanKey (param : Str) : Str := (pySplitAll '=' param).headD []

/-- The re-scan loop of check_reflection (reflection.py lines 58 to
61): walk the raw ampersand-split fields and force qualifying keys to
the empty string. -/
def rescanFold (d : List (Str × PyVal)) (segs : List Str) : List (Str × PyVal) :=
  segs.foldl
    (fun d param =>
      if rescanQual param then alSet d (rescanKey param) (PyVal.vstr []) else d) d

/-- The query_params dict after parse_qs and the re-scan loop. -/
def query_paramsF (q : Str) : List (Str × PyVal) :=
  rescanFold ((parse_qs q).map fun kv => (kv.1, PyVal.vlist kv.2)) (pySplitAll '&' q)

/-- The flattening of one value in reflection.py line 63: the first
element of a list, the string itself otherwise. -/
def flatten1 : PyVal → Str
  | .vstr s => s
  | .vlist vs => vs.headD []

/-- A value the flattening step accepts without raising IndexError. -/
def okVal : PyVal → Prop
  | .vstr _ => True
  | .vlist vs => vs ≠ []

/-- The flattening of one value as the Python expression evaluates,
raising IndexError on an empty list. -/
def flattenValE : PyVal → Except Str PyVal
  | .vstr s => .ok (.vstr s)
  | .vlist [] => .error (str "IndexError")
  | .vlist (v :: _) => .ok (.vstr v)

/-- The dict comprehension of reflection.py line 63: items are
flattened left to right and the first IndexError aborts the whole
expression. -/
def original_paramsE : List (Str × PyVal) → Except Str (List (Str × PyVal))
  | [] => .ok []
  | kv :: rest => do
    let v ← flattenValE kv.2
    let r ← original_paramsE rest
    .ok ((kv.1, v) :: r)

/-- Total form of the flattening, used once flattening is known to
succeed. -/
def flattenParams (d : List (Str × PyVal)) : List (Str × PyVal) :=
  d.map fun kv => (kv.1, PyVal.vstr (flatten1 kv.2))

/-- The original_params dict computed by check_reflection for a query. -/
def originalOf (q : Str) : List (Str × PyVal) := flattenParams (query_paramsF q)

/-- The emission loop of check_reflection (lines 65 to 68): one saved
line per parameter name; a failure stops the loop and reaches the
except handler. -/
def emitLoop (url : Str) (original : List (Str × PyVal)) : List Str → List Str × Bool
  | [] => ([], true)
  | k :: ks =>
    match save_reflected_url url k (alSet original k payloadV) with
    | .error _ => ([], false)
    | .ok line =>
      let r := emitLoop url original ks
      (line :: r.1, r.2)

/-- Modelled from check_reflection (reflection.py lines 50 to 74):
parse the URL, build the parameter dict, re-scan for empty parameters,
flatten, and emit one placeholder line per parameter.  Returns the
lines written for this URL and whether the try block completed; any
failure is caught by the except handler, and the finally block
increments the processed counter exactly once either way, which
processedDelta records. -/
def check_reflection (url : Str) : List Str × Bool :=
  match urlparsePy url with
  | .error _ => ([], false)
  | .ok parsed =>
    match original_paramsE (query_paramsF parsed.query) with
    | .error _ => ([], false)
    | .ok original => emitLoop url original (original.map fun kv => kv.1)

/-- The finally block of check_reflection increments processed_urls by
one per call, on success and on failure alike. -/
def processedDelta (_ : Str) : Nat := 1

/-- The processed counter after a list of check_reflection calls. -/
def processedTotal (urls : List Str) : Nat := (urls.map processedDelta).sum

/-- The worker closure of process_urls (lines 80 to 82): process a
sublist sequentially; its lines are the concatenation per URL. -/
def workerLines (sub : List Str) : List Str :=
  (sub.map fun u => (check_reflection u).1).flatten

/-- Helper for the stride slices, with fuel bounding the recursion by
the list length. -/
def chunksGo : Nat → Nat → List Str → List (List Str)
  | 0, _, _ => []
  | _, _, [] => []
  | fuel + 1, c, x :: xs => (x :: xs.take (c - 1)) :: chunksGo fuel c (xs.drop (c - 1))

/-- The slices urls[i : i + c] for i in range(0, len(urls), c), as the
thread-launching loop of process_urls takes them (c at least one). -/
def chunksOf (c : Nat) (l : List Str) : List (List Str) := chunksGo l.length c l

/-- The chunks process_urls hands to its workers. -/
def strideChunks (urls : List Str) (threads : Nat) : List (List Str) :=
  chunksOf (max 1 (urls.length / threads)) urls

/-- Modelled from process_urls (reflection.py lines 76 to 95): chunk
the list with stride max(1, total over threads), run one worker per
chunk, join them all, and report the counter totals.  The sequential
chunk order fixes one admissible schedule; the multiset of lines is
schedule-independent because workers share no per-URL state. -/
def process_urls (urls : List Str) (threads : Nat) : List Str × Nat :=
  (((strideChunks urls threads).map workerLines).flatten,
    ((strideChunks urls threads).map processedTotal).sum)

/-- The number of threads the launching loop starts. -/
def numWorkers (urls : List Str) (threads : Nat) : Nat :=
  (strideChunks urls threads).length

/-- Modelled from the claim wording for C1 (spec section 8): the
original URL with exactly one parameter value textually replaced by the
placeholder and every other character unchanged. -/
def specReplaceParam (url : Str) (k : Str) : Str :=
  match pySplit1 '?' url with
  | (pre, some q) =>
    pre ++ '?' :: joinSep ['&'] ((pySplitAll '&' q).map fun seg =>
      if (pySplitAll '=' seg).headD [] = k then k ++ '=' :: payloadStr else seg)
  | (pre, none) => pre

/-- First-occurrence deduplication of a key list. -/
def dedupKeys : List Str → List Str
  | [] => []
  | k :: ks => k :: (dedupKeys ks).filter fun k2 => !(k2 == k)

/-- The distinct raw parameter names of a URL, read off its text as the
claims count them. -/
def rawParamNames (url : Str) : List Str :=
  match pySplit1 '?' url with
  | (_, some q) => dedupKeys ((pySplitAll '&' q).map fun seg => (pySplitAll '=' seg).headD [])
  | (_, none) => []

/-- The pair list with the value at one key replaced by the
placeholder. -/
def payloadAt (ps : List (Str × Str)) (k : Str) : List (Str × Str) :=
  ps.map fun kv => if kv.1 = k then (kv.1, payloadStr) else kv

/-- Serialization of plain string pairs as a query. -/
def serializePairsStr (ps : List (Str × Str)) : Str :=
  joinSep ['&'] (ps.map fun kv => kv.1 ++ '=' :: kv.2)

/-- A character free of the query metacharacters and of the characters
the parser decodes. -/
def plainChar (c : Char) : Bool :=
  if c = '&' ∨ c = '=' ∨ c = '%' ∨ c = '+' then false else true

/-- A nonempty string of plain characters. -/
abbrev goodStr (s : Str) : Prop := s ≠ [] ∧ s.all plainChar = true

/-- All values recorded for a key, in occurrence order. -/
def valsOf (ps : List (Str × Str)) (k : Str) : List Str :=
  (ps.filter fun kv => kv.1 == k).map fun kv => kv.2

/-- The value of the first occurrence of a key in a pair list. -/
def firstValOf (ps : List (Str × Str)) (k : Str) : Str :=
  (valsOf ps k).headD []

/-- The line check_reflection emits for one parameter map. -/
def buildLine (p : ParseParts) (m : List (Str × PyVal)) : Str :=
  urlunparsePy (setQuery p (serializeParams m))

/-! ### Concrete instances used by the closed theorems -/

/-- A two-parameter example URL. -/
def exUrl : Str := str "http://example.com/page?a=1&b=2"

/-- The parse result of exUrl. -/
def exParts : ParseParts :=
  ⟨str "http", str "example.com", str "/page", [], str "a=1&b=2", []⟩

/-- The query pairs of exUrl. -/
def exPairs : List (Str × Str) := [(str "a", str "1"), (str "b", str "2")]

/-- An example URL whose first parameter value holds a plus sign. -/
def exUrlPlus : Str := str "http://example.com/page?a=1+2&b=2"

/-- An example URL with a duplicated parameter name. -/
def exUrlDup : Str := str "http://example.com/page?a=1&a=2&b=3"

/-- The parse result of exUrlDup. -/
def exPartsDup : ParseParts :=
  ⟨str "http", str "example.com", str "/page", [], str "a=1&a=2&b=3", []⟩

/-- The query pairs of exUrlDup, duplicate kept. -/
def exPairsDup : List (Str × Str) :=
  [(str "a", str "1"), (str "a", str "2"), (str "b", str "3")]

/-- An example URL whose single parameter has no value. -/
def exUrlX : Str := str "http://example.com/page?x"

/-- The parse result of exUrlX. -/
def exPartsX : ParseParts :=
  ⟨str "http", str "example.com", str "/page", [], str "x", []⟩

/-- An example URL whose first parameter value is already the
placeholder token. -/
def exUrlPayload : Str := str "http://example.com/p?a={payload}&b=2"

/-- A URL urlparse rejects with ValueError: a mismatched square bracket
in the netloc. -/
def exUrlBad : Str := str "http://[a"

/-- Nine short URLs for the worker-count counterexample. -/
def exNine : List Str :=
  [str "u1", str "u2", str "u3", str "u4", str "u5", str "u6", str "u7",
   str "u8", str "u9"]

/-! ### Lemmas about the string primitives -/

theorem pySplitAll_ne_nil (sep : Char) (s : Str) : pySplitAll sep s ≠ [] := by
  cases s with
  | nil => simp [pySplitAll]
  | cons c rest => simp only [pySplitAll]; split <;> simp

theorem pySplitAll_no_sep (sep : Char) (s : Str) (h : sep ∉ s) :
    pySplitAll sep s = [s] := by
  induction s with
  | nil => rfl
  | cons c rest ih =>
    simp only [List.mem_cons, not_or] at h
    simp [pySplitAll, ih h.2, Ne.symm h.1]

theorem pySplitAll_append (sep : Char) (s t : Str) (h : sep ∉ s) :
    pySplitAll sep (s ++ sep :: t) = s :: pySplitAll sep t := by
  induction s with
  | nil => simp [pySplitAll]
  | cons c rest ih =>
    simp only [List.mem_cons, not_or] at h
    simp [pySplitAll, ih h.2, Ne.symm h.1]

theorem pySplitAll_joinSep (sep : Char) (segs : List Str) (hne : segs ≠ [])
    (h : ∀ x ∈ segs, sep ∉ x) :
    pySplitAll sep (joinSep [sep] segs) = segs := by
  induction segs with
  | nil => exact absurd rfl hne
  | cons x rest ih =>
    cases rest with
    | nil => exact pySplitAll_no_sep sep x (h x (by simp))
    | cons y r2 =>
      have hx : sep ∉ x := h x (by simp)
      have : joinSep [sep] (x :: y :: r2) = x ++ sep :: joinSep [sep] (y :: r2) := by
        simp [joinSep]
      rw [this, pySplitAll_append sep x _ hx,
        ih (by simp) (fun z hz => h z (List.mem_cons_of_mem x hz))]

theorem pySplit1_no_sep (sep : Char) (s : Str) (h : sep ∉ s) :
    pySplit1 sep s = (s, none) := by
  induction s with
  | nil => rfl
  | cons c rest ih =>
    simp only [List.mem_cons, not_or] at h
    simp [pySplit1, ih h.2, Ne.symm h.1]

theorem pySplit1_append (sep : Char) (s t : Str) (h : sep ∉ s) :
    pySplit1 sep (s ++ sep :: t) = (s, some t) := by
  induction s with
  | nil => simp [pySplit1]
  | cons c rest ih =>
    simp only [List.mem_cons, not_or] at h
    simp [pySplit1, ih h.2, Ne.symm h.1]

theorem joinSep_cons_cons (sep : Str) (x y : Str) (rest : List Str) :
    joinSep sep (x :: y :: rest) = x ++ sep ++ joinSep sep (y :: rest) := rfl

theorem joinSep_ne_nil (sep : Str) (x : Str) (rest : List Str) (hx : x ≠ []) :
    joinSep sep (x :: rest) ≠ [] := by
  cases rest with
  | nil => simpa [joinSep]
  | cons y r2 => simp [joinSep, hx]

theorem plusToSpace_id (s : Str) (h : '+' ∉ s) : plusToSpace s = s := by
  induction s with
  | nil => rfl
  | cons c rest ih =>
    simp only [List.mem_cons, not_or] at h
    simp [plusToSpace] at ih ⊢
    exact ⟨by simp [Ne.symm h.1], ih h.2⟩

theorem unquoteGo_id (fuel : Nat) (s : Str) (hf : s.length ≤ fuel) (h : '%' ∉ s) :
    unquoteGo fuel s [] = s := by
  induction fuel generalizing s with
  | zero =>
    cases s with
    | nil => rfl
    | cons c rest => simp at hf
  | succ fuel ih =>
    cases s with
    | nil => rfl
    | cons c rest =>
      simp only [List.mem_cons, not_or] at h
      simp only [List.length_cons, Nat.succ_le_succ_iff] at hf
      simp [unquoteGo, Ne.symm h.1, ih rest hf h.2, utf8DecodeReplace, utf8DecodeGo]

theorem unquotePy_id (s : Str) (h : '%' ∉ s) : unquotePy s = s :=
  unquoteGo_id s.length s le_rfl h

/-! ### Lemmas about association lists -/

theorem alGet_alSet_self {α : Type} (l : List (Str × α)) (k : Str) (v : α) :
    alGet (alSet l k v) k = some v := by
  induction l with
  | nil => simp [alGet, alSet]
  | cons kv rest ih =>
    by_cases h : kv.1 = k
    · simp [alGet, alSet, h]
    · simp [alGet, alSet, h, ih]

theorem alGet_alSet_ne {α : Type} (l : List (Str × α)) (k k' : Str) (v : α)
    (h : k' ≠ k) : alGet (alSet l k' v) k = alGet l k := by
  induction l with
  | nil => simp [alGet, alSet, h]
  | cons kv rest ih =>
    by_cases hk : kv.1 = k'
    · simp [alGet, alSet, hk, h]
    · by_cases hkk : kv.1 = k
      · simp [alGet, alSet, hk, hkk, Ne.symm h]
      · simp [alGet, alSet, hk, hkk, ih]

theorem alSet_alSet_self {α : Type} (l : List (Str × α)) (k : Str) (v : α) :
    alSet (alSet l k v) k v = alSet l k v := by
  induction l with
  | nil => simp [alSet]
  | cons kv rest ih =>
    by_cases h : kv.1 = k
    · simp [alSet, h]
    · simp [alSet, h, ih]

theorem mapFst_alSet {α : Type} (l : List (Str × α)) (k : Str) (v : α)
    (h : k ∈ l.map Prod.fst) :
    (alSet l k v).map Prod.fst = l.map Prod.fst := by
  induction l with
  | nil => simp at h
  | cons kv rest ih =>
    by_cases hk : kv.1 = k
    · simp [alSet, hk]
    · have : k ∈ rest.map Prod.fst := by
        rcases List.mem_map.1 h with ⟨x, hx, hxk⟩
        rcases List.mem_cons.1 hx with rfl | hx2
        · exact absurd hxk hk
        · exact List.mem_map.2 ⟨x, hx2, hxk⟩
      simp [alSet, hk, ih this]

theorem alGet_mem {α : Type} (l : List (Str × α)) (k : Str) (v : α)
    (h : alGet l k = some v) : (k, v) ∈ l := by
  induction l with
  | nil => simp [alGet] at h
  | cons kv rest ih =>
    by_cases hk : kv.1 = k
    · simp only [alGet, hk, if_pos rfl] at h
      obtain rfl : kv.2 = v := Option.some_injective _ h
      simp [← hk]
    · simp only [alGet, hk, if_neg hk] at h
      exact List.mem_cons_of_mem _ (ih h)

theorem alGet_mem_keys {α : Type} (l : List (Str × α)) (k : Str) (v : α)
    (h : alGet l k = some v) : k ∈ l.map Prod.fst :=
  List.mem_map.2 ⟨(k, v), alGet_mem l k v h, rfl⟩

theorem mem_alSet {α : Type} (l : List (Str × α)) (k : Str) (v : α) (kv : Str × α)
    (h : kv ∈ alSet l k v) : kv ∈ l ∨ kv = (k, v) := by
  induction l with
  | nil => simp [alSet] at h; simp [h]
  | cons hd rest ih =>
    by_cases hk : hd.1 = k
    · simp only [alSet, if_pos hk] at h
      rcases List.mem_cons.1 h with rfl | h2
      · right; rfl
      · left; exact List.mem_cons_of_mem _ h2
    · simp only [alSet, if_neg hk] at h
      rcases List.mem_cons.1 h with rfl | h2
      · left; simp
      · rcases ih h2 with h3 | h3
        · left; exact List.mem_cons_of_mem _ h3
        · right; exact h3

theorem alSet_eq_map {α : Type} (l : List (Str × α)) (k : Str) (v : α)
    (hnd : (l.map Prod.fst).Nodup) (h : k ∈ l.map Prod.fst) :
    alSet l k v = l.map fun kv => if kv.1 = k then (k, v) else kv := by
  induction l with
  | nil => simp at h
  | cons hd rest ih =>
    simp only [List.map_cons, List.nodup_cons] at hnd
    by_cases hk : hd.1 = k
    · have : ∀ kv ∈ rest, (if kv.1 = k then (k, v) else kv) = kv := by
        intro kv hkv
        have : kv.1 ≠ k := by
          intro hkk
          exact hnd.1 (hk ▸ hkk ▸ List.mem_map.2 ⟨kv, hkv, rfl⟩)
        simp [this]
      simp only [alSet, if_pos hk, List.map_cons, if_pos hk]
      rw [List.map_congr_left this, List.map_id']
    · have hr : k ∈ rest.map Prod.fst := by
        rcases List.mem_map.1 h with ⟨x, hx, hxk⟩
        rcases List.mem_cons.1 hx with rfl | hx2
        · exact absurd hxk hk
        · exact List.mem_map.2 ⟨x, hx2, hxk⟩
      simp only [alSet, if_neg hk, List.map_cons, if_neg hk]
      rw [ih hnd.2 hr]

theorem alGet_mapVal {α β : Type} (l : List (Str × α)) (f : α → β) (k : Str) :
    alGet (l.map fun kv => (kv.1, f kv.2)) k = (alGet l k).map f := by
  induction l with
  | nil => simp [alGet]
  | cons kv rest ih =>
    by_cases h : kv.1 = k
    · simp [alGet, h]
    · simp [alGet, h, ih]

/-! ### Lemmas about the chunking of process_urls -/

theorem flatten_chunksGo (c n : Nat) :
    ∀ l : List Str, l.length ≤ n → (chunksGo n c l).flatten = l := by
  induction n with
  | zero =>
    intro l hl
    cases l with
    | nil => rfl
    | cons x xs => simp at hl
  | succ n ih =>
    intro l hl
    cases l with
    | nil => rfl
    | cons x xs =>
      simp only [chunksGo, List.flatten_cons]
      rw [ih (xs.drop (c - 1))
        (by simp only [List.length_drop]; simp only [List.length_cons] at hl; omega)]
      simp [List.take_append_drop]

theorem flatten_chunksOf (c : Nat) (l : List Str) : (chunksOf c l).flatten = l :=
  flatten_chunksGo c l.length l le_rfl

theorem length_chunksGo (c : Nat) (hc : 1 ≤ c) (n : Nat) :
    ∀ l : List Str, l.length ≤ n → (chunksGo n c l).length = (l.length + c - 1) / c := by
  induction n with
  | zero =>
    intro l hl
    cases l with
    | nil => simp [chunksGo, Nat.div_eq_of_lt (show c - 1 < c by omega)]
    | cons x xs => simp at hl
  | succ n ih =>
    intro l hl
    cases l with
    | nil => simp [chunksGo, Nat.div_eq_of_lt (show c - 1 < c by omega)]
    | cons x xs =>
      simp only [chunksGo, List.length_cons]
      rw [ih (xs.drop (c - 1))
        (by simp only [List.length_drop]; simp only [List.length_cons] at hl; omega)]
      simp only [List.length_drop, List.length_cons]
      rcases Nat.lt_or_ge (xs.length + 1) c with hcase | hcase
      · have h1 : xs.length - (c - 1) = 0 := by omega
        have h2 : (xs.length + 1 + c - 1) / c = 1 := by
          apply Nat.div_eq_of_lt_le <;> omega
        have h3 : (0 + c - 1) / c = 0 := Nat.div_eq_of_lt (by omega)
        rw [h1, h2, h3]
      · have h1 : xs.length - (c - 1) + c - 1 + c = xs.length + 1 + c - 1 := by omega
        rw [← h1, Nat.add_div_right _ (by omega)]

theorem length_chunksOf (c : Nat) (hc : 1 ≤ c) (l : List Str) :
    (chunksOf c l).length = (l.length + c - 1) / c :=
  length_chunksGo c hc l.length l le_rfl

theorem length_strideChunks (urls : List Str) (t : Nat) :
    (strideChunks urls t).length =
      (urls.length + max 1 (urls.length / t) - 1) / max 1 (urls.length / t) :=
  length_chunksOf _ (le_max_left 1 _) urls

/-! ### Lemmas about the parse_qs grouping -/

theorem alGet_alAppendVal_self (d : List (Str × List Str)) (k : Str) (v : Str) :
    alGet (alAppendVal d k v) k = some ((alGet d k).getD [] ++ [v]) := by
  induction d with
  | nil => simp [alGet, alAppendVal]
  | cons kv rest ih =>
    by_cases h : kv.1 = k
    · simp [alGet, alAppendVal, h]
    · simp [alGet, alAppendVal, h, ih]

theorem alGet_alAppendVal_ne (d : List (Str × List Str)) (k k' : Str) (v : Str)
    (h : k' ≠ k) : alGet (alAppendVal d k' v) k = alGet d k := by
  induction d with
  | nil => simp [alGet, alAppendVal, h]
  | cons kv rest ih =>
    by_cases hk : kv.1 = k'
    · simp [alGet, alAppendVal, hk, h]
    · by_cases hkk : kv.1 = k
      · simp [alGet, alAppendVal, hk, hkk, Ne.symm h]
      · simp [alGet, alAppendVal, hk, hkk, ih]

theorem alAppendVal_notMem (d : List (Str × List Str)) (k : Str) (v : Str)
    (h : k ∉ d.map Prod.fst) : alAppendVal d k v = d ++ [(k, [v])] := by
  induction d with
  | nil => rfl
  | cons kv rest ih =>
    simp only [List.map_cons, List.mem_cons, not_or] at h
    simp [alAppendVal, Ne.symm h.1, ih h.2]

theorem mapFst_alAppendVal (d : List (Str × List Str)) (k : Str) (v : Str) :
    (alAppendVal d k v).map Prod.fst =
      if k ∈ d.map Prod.fst then d.map Prod.fst else d.map Prod.fst ++ [k] := by
  induction d with
  | nil => simp [alAppendVal]
  | cons kv rest ih =>
    by_cases h : kv.1 = k
    · simp [alAppendVal, h]
    · have hne : ¬ k = kv.1 := fun e => h e.symm
      by_cases hm : k ∈ rest.map Prod.fst
      · simp [alAppendVal, h, ih, hm, hne]
      · simp [alAppendVal, h, ih, hm, hne]

theorem valsOf_cons (kv : Str × Str) (ps : List (Str × Str)) (k : Str) :
    valsOf (kv :: ps) k = if kv.1 = k then kv.2 :: valsOf ps k else valsOf ps k := by
  by_cases h : kv.1 = k <;> simp [valsOf, List.filter_cons, h]

theorem valsOf_ne_nil (ps : List (Str × Str)) (k : Str) (h : k ∈ ps.map Prod.fst) :
    valsOf ps k ≠ [] := by
  induction ps with
  | nil => simp at h
  | cons kv rest ih =>
    rw [valsOf_cons]
    by_cases hk : kv.1 = k
    · simp [hk]
    · have : k ∈ rest.map Prod.fst := by
        rcases List.mem_map.1 h with ⟨x, hx, hxk⟩
        rcases List.mem_cons.1 hx with rfl | hx2
        · exact absurd hxk hk
        · exact List.mem_map.2 ⟨x, hx2, hxk⟩
      simp [hk, ih this]

theorem alGet_groupFold (ps : List (Str × Str)) (d : List (Str × List Str)) (k : Str) :
    alGet (ps.foldl (fun d kv => alAppendVal d kv.1 kv.2) d) k =
      match alGet d k with
      | some vs => some (vs ++ valsOf ps k)
      | none => if valsOf ps k = [] then none else some (valsOf ps k) := by
  induction ps generalizing d with
  | nil => cases h : alGet d k <;> simp [valsOf, h]
  | cons kv ps ih =>
    simp only [List.foldl_cons]
    rw [ih, valsOf_cons]
    by_cases hk : kv.1 = k
    · rw [if_pos hk, hk, alGet_alAppendVal_self]
      cases h : alGet d k with
      | none => simp [h]
      | some vs => simp [h]
    · rw [if_neg hk, alGet_alAppendVal_ne d k kv.1 kv.2 hk]

theorem nodup_keys_groupFold (ps : List (Str × Str)) (d : List (Str × List Str))
    (hd : (d.map Prod.fst).Nodup) :
    ((ps.foldl (fun d kv => alAppendVal d kv.1 kv.2) d).map Prod.fst).Nodup := by
  induction ps generalizing d with
  | nil => exact hd
  | cons kv ps ih =>
    simp only [List.foldl_cons]
    apply ih
    rw [mapFst_alAppendVal]
    by_cases hm : kv.1 ∈ d.map Prod.fst
    · simpa [hm]
    · simp only [hm, if_neg]
      simp [List.nodup_append, hd, hm]

theorem groupFold_of_nodup (ps : List (Str × Str)) (d : List (Str × List Str))
    (hnd : (ps.map Prod.fst).Nodup)
    (hdis : ∀ k ∈ ps.map Prod.fst, k ∉ d.map Prod.fst) :
    ps.foldl (fun d kv => alAppendVal d kv.1 kv.2) d =
      d ++ ps.map fun kv => (kv.1, [kv.2]) := by
  induction ps generalizing d with
  | nil => simp
  | cons kv ps ih =>
    simp only [List.map_cons, List.nodup_cons] at hnd
    simp only [List.foldl_cons]
    rw [alAppendVal_notMem d kv.1 kv.2 (hdis kv.1 (by simp))]
    rw [ih _ hnd.2]
    · simp
    · intro k hk
      simp only [List.map_append, List.mem_append]
      push_neg
      constructor
      · exact hdis k (by simp [hk])
      · simp only [List.map_cons, List.map_nil, List.mem_singleton]
        intro he
        exact hnd.1 (he ▸ hk)

/-- parse_qs on a list of distinct keys yields one singleton list per
pair, in order. -/
theorem parse_qs_of_nodup (qs : Str)
    (hnd : ((parse_qsl qs).map Prod.fst).Nodup) :
    parse_qs qs = (parse_qsl qs).map fun kv => (kv.1, [kv.2]) := by
  have := groupFold_of_nodup (parse_qsl qs) [] hnd (by simp)
  simpa [parse_qs] using this

/-! ### Lemmas about the re-scan loop -/

theorem rescanFold_cons (d : List (Str × PyVal)) (s : Str) (segs : List Str) :
    rescanFold d (s :: segs) =
      rescanFold (if rescanQual s then alSet d (rescanKey s) (PyVal.vstr []) else d) segs := by
  simp [rescanFold]

theorem rescanFold_pres (segs : List Str) (d : List (Str × PyVal)) (k : Str)
    (h : alGet d k = some (PyVal.vstr [])) :
    alGet (rescanFold d segs) k = some (PyVal.vstr []) := by
  induction segs generalizing d with
  | nil => exact h
  | cons s segs ih =>
    rw [rescanFold_cons]
    by_cases hq : rescanQual s
    · simp only [hq, if_pos]
      by_cases hk : rescanKey s = k
      · exact ih _ (by rw [hk, alGet_alSet_self])
      · exact ih _ (by rw [alGet_alSet_ne _ _ _ _ hk, h])
    · simp only [hq, if_neg, ite_false]
      exact ih _ h

theorem rescanFold_mem (segs : List Str) (d : List (Str × PyVal)) (s : Str)
    (hs : s ∈ segs) (hq : rescanQual s = true) :
    alGet (rescanFold d segs) (rescanKey s) = some (PyVal.vstr []) := by
  induction segs generalizing d with
  | nil => simp at hs
  | cons a segs ih =>
    rw [rescanFold_cons]
    rcases List.mem_cons.1 hs with rfl | hs2
    · rw [if_pos hq]
      exact rescanFold_pres segs _ _ (alGet_alSet_self d (rescanKey s) (PyVal.vstr []))
    · exact ih _ hs2

theorem rescanFold_noop (segs : List Str) (d : List (Str × PyVal))
    (h : ∀ s ∈ segs, rescanQual s = false) : rescanFold d segs = d := by
  induction segs generalizing d with
  | nil => rfl
  | cons s segs ih =>
    rw [rescanFold_cons, h s (by simp), if_neg (by simp)]
    exact ih _ fun x hx => h x (List.mem_cons_of_mem s hx)

theorem mapFst_alSet_full {α : Type} (l : List (Str × α)) (k : Str) (v : α) :
    (alSet l k v).map Prod.fst =
      if k ∈ l.map Prod.fst then l.map Prod.fst else l.map Prod.fst ++ [k] := by
  induction l with
  | nil =>
    rw [if_neg (by simp)]
    rfl
  | cons kv rest ih =>
    by_cases h : kv.1 = k
    · rw [if_pos (by rw [List.map_cons, h]; exact List.mem_cons_self _ _)]
      simp only [alSet]
      rw [if_pos h, List.map_cons, List.map_cons, h]
    · have hiff : (k ∈ (kv :: rest).map Prod.fst) ↔ (k ∈ rest.map Prod.fst) := by
        rw [List.map_cons, List.mem_cons]
        constructor
        · rintro (he | hm)
          · exact absurd he.symm h
          · exact hm
        · exact Or.inr
      simp only [alSet]
      rw [if_neg h, List.map_cons, ih]
      by_cases hm : k ∈ rest.map Prod.fst
      · rw [if_pos hm, if_pos (hiff.2 hm), List.map_cons]
      · rw [if_neg hm, if_neg (fun hx => hm (hiff.1 hx)), List.map_cons, List.cons_append]

theorem nodup_alSet {α : Type} (l : List (Str × α)) (k : Str) (v : α)
    (h : (l.map Prod.fst).Nodup) : ((alSet l k v).map Prod.fst).Nodup := by
  rw [mapFst_alSet_full]
  by_cases hm : k ∈ l.map Prod.fst
  · simpa [hm]
  · simp only [hm, if_neg]
    simp [List.nodup_append, h, hm]

theorem nodup_rescanFold (segs : List Str) (d : List (Str × PyVal))
    (h : (d.map Prod.fst).Nodup) : ((rescanFold d segs).map Prod.fst).Nodup := by
  induction segs generalizing d with
  | nil => exact h
  | cons s segs ih =>
    rw [rescanFold_cons]
    by_cases hq : rescanQual s
    · simp only [hq, if_pos]
      exact ih _ (nodup_alSet d _ _ h)
    · simp only [hq, if_neg, ite_false]
      exact ih _ h

/-! ### Lemmas about the flattening step -/

theorem original_paramsE_ok (d : List (Str × PyVal)) (h : ∀ kv ∈ d, okVal kv.2) :
    original_paramsE d = .ok (flattenParams d) := by
  induction d with
  | nil => rfl
  | cons kv d ih =>
    have hv : okVal kv.2 := h kv (by simp)
    have hrest := ih fun x hx => h x (List.mem_cons_of_mem kv hx)
    cases hkv : kv.2 with
    | vstr s =>
      simp [original_paramsE, flattenValE, hrest, flattenParams, flatten1, hkv,
        Bind.bind, Except.bind]
    | vlist vs =>
      cases vs with
      | nil => rw [hkv] at hv; exact absurd rfl hv
      | cons v vs =>
        simp [original_paramsE, flattenValE, hrest, flattenParams, flatten1, hkv,
          Bind.bind, Except.bind]

theorem alAppendVal_vals_ne_nil (d : List (Str × List Str)) (k : Str) (v : Str)
    (h : ∀ kv ∈ d, kv.2 ≠ ([] : List Str)) :
    ∀ kv ∈ alAppendVal d k v, kv.2 ≠ ([] : List Str) := by
  induction d with
  | nil => simp [alAppendVal]
  | cons hd rest ih =>
    intro kv hkv
    by_cases hk : hd.1 = k
    · simp only [alAppendVal, if_pos hk] at hkv
      rcases List.mem_cons.1 hkv with rfl | h2
      · simp
      · exact h kv (List.mem_cons_of_mem hd h2)
    · simp only [alAppendVal, if_neg hk] at hkv
      rcases List.mem_cons.1 hkv with rfl | h2
      · exact h kv (by simp)
      · exact ih (fun x hx => h x (List.mem_cons_of_mem hd hx)) kv h2

theorem parse_qs_vals_ne_nil (qs : Str) :
    ∀ kv ∈ parse_qs qs, kv.2 ≠ ([] : List Str) := by
  have H : ∀ (ps : List (Str × Str)) (d : List (Str × List Str)),
      (∀ kv ∈ d, kv.2 ≠ ([] : List Str)) →
      ∀ kv ∈ ps.foldl (fun d kv => alAppendVal d kv.1 kv.2) d, kv.2 ≠ ([] : List Str) := by
    intro ps
    induction ps with
    | nil => intro d hd; simpa using hd
    | cons kv ps ih =>
      intro d hd
      simp only [List.foldl_cons]
      exact ih _ (alAppendVal_vals_ne_nil d kv.1 kv.2 hd)
  exact H (parse_qsl qs) [] (by simp)

theorem okVal_rescanFold (segs : List Str) (d : List (Str × PyVal))
    (h : ∀ kv ∈ d, okVal kv.2) : ∀ kv ∈ rescanFold d segs, okVal kv.2 := by
  induction segs generalizing d with
  | nil => exact h
  | cons s segs ih =>
    rw [rescanFold_cons]
    by_cases hq : rescanQual s
    · simp only [hq, if_pos]
      apply ih
      intro kv hkv
      rcases mem_alSet d _ _ kv hkv with h2 | h2
      · exact h kv h2
      · rw [h2]; trivial
    · simp only [hq, if_neg, ite_false]
      exact ih _ h

theorem okVal_query_paramsF (q : Str) : ∀ kv ∈ query_paramsF q, okVal kv.2 := by
  apply okVal_rescanFold
  intro kv hkv
  rcases List.mem_map.1 hkv with ⟨x, hx, rfl⟩
  exact parse_qs_vals_ne_nil q x hx

theorem mapFst_flattenParams (d : List (Str × PyVal)) :
    (flattenParams d).map Prod.fst = d.map Prod.fst := by
  simp [flattenParams]

theorem alGet_flattenParams (d : List (Str × PyVal)) (k : Str) :
    alGet (flattenParams d) k = (alGet d k).map fun v => PyVal.vstr (flatten1 v) := by
  unfold flattenParams
  exact alGet_mapVal d (fun v => PyVal.vstr (flatten1 v)) k

/-! ### The structural form of check_reflection on a parsed URL -/

theorem save_reflected_url_ok (url : Str) (p : ParseParts) (k : Str)
    (m : List (Str × PyVal)) (hp : urlparsePy url = .ok p) :
    save_reflected_url url k m = .ok (buildLine p (alSet m k payloadV)) := by
  simp [save_reflected_url, hp, buildLine, Except.map]

theorem emitLoop_eq (url : Str) (p : ParseParts) (orig : List (Str × PyVal))
    (ks : List Str) (hp : urlparsePy url = .ok p) :
    emitLoop url orig ks =
      (ks.map fun k => buildLine p (alSet orig k payloadV), true) := by
  induction ks with
  | nil => rfl
  | cons k ks ih =>
    simp only [emitLoop]
    rw [save_reflected_url_ok url p k _ hp]
    simp only [ih, List.map_cons]
    rw [alSet_alSet_self]

theorem check_reflection_eq (url : Str) (p : ParseParts)
    (hp : urlparsePy url = .ok p) :
    check_reflection url =
      ((originalOf p.query).map
        (fun kv => buildLine p (alSet (originalOf p.query) kv.1 payloadV)), true) := by
  simp only [check_reflection, hp, original_paramsE_ok _ (okVal_query_paramsF p.query)]
  rw [emitLoop_eq url p _ _ hp]
  simp only [List.map_map]
  rfl

/-! ### The textual shape of a rebuilt URL -/

theorem urlunparse_setQuery (p : ParseParts) (q : Str) (hq : q ≠ []) :
    urlunparsePy (setQuery p q) = baseOf p ++ '?' :: (q ++ fragTail p) := by
  simp [urlunparsePy, urlunsplitPy, setQuery, baseOf, fragTail, hq, pathWithParams]

/-! ### Canonical queries: ampersand-joined key=value pairs of plain
characters round-trip through the parser unchanged -/

theorem filterMap_map_eq_self {β : Type} (l : List β) (f : β → Str)
    (g : Str → Option β) (h : ∀ b ∈ l, g (f b) = some b) :
    (l.map f).filterMap g = l := by
  induction l with
  | nil => rfl
  | cons b rest ih =>
    rw [List.map_cons, List.filterMap_cons, h b (by simp)]
    rw [ih fun x hx => h x (List.mem_cons_of_mem b hx)]

theorem goodStr_not_mem (s : Str) (h : goodStr s) (c : Char)
    (hc : plainChar c = false) : c ∉ s := by
  intro hm
  have := List.all_eq_true.1 h.2 c hm
  rw [hc] at this
  exact Bool.false_ne_true this

theorem not_mem_seg (k v : Str) (hk : goodStr k) (hv : goodStr v) (c : Char)
    (hc : plainChar c = false) (hne : c ≠ '=') : c ∉ k ++ '=' :: v := by
  intro hm
  rcases List.mem_append.1 hm with h1 | h1
  · exact goodStr_not_mem k hk c hc h1
  · rcases List.mem_cons.1 h1 with h2 | h2
    · exact hne h2
    · exact goodStr_not_mem v hv c hc h2

theorem parse_qsl_serialize (ps : List (Str × Str)) (hne : ps ≠ [])
    (hg : ∀ kv ∈ ps, goodStr kv.1 ∧ goodStr kv.2) :
    parse_qsl (serializePairsStr ps) = ps := by
  unfold parse_qsl serializePairsStr
  rw [pySplitAll_joinSep '&' _ (by simpa using hne)
    (fun x hx => by
      rcases List.mem_map.1 hx with ⟨kv, hkv, rfl⟩
      exact not_mem_seg kv.1 kv.2 (hg kv hkv).1 (hg kv hkv).2 '&' (by decide) (by decide))]
  apply filterMap_map_eq_self
  intro kv hkv
  obtain ⟨hgk, hgv⟩ := hg kv hkv
  have h1 : ¬ (kv.1 ++ '=' :: kv.2) = [] := by simp
  have h2 : pySplit1 '=' (kv.1 ++ '=' :: kv.2) = (kv.1, some kv.2) :=
    pySplit1_append '=' kv.1 kv.2 (goodStr_not_mem kv.1 hgk '=' (by decide))
  simp only [h1, if_neg, ite_false, h2, if_neg hgv.1]
  rw [plusToSpace_id kv.1 (goodStr_not_mem kv.1 hgk '+' (by decide)),
    plusToSpace_id kv.2 (goodStr_not_mem kv.2 hgv '+' (by decide)),
    unquotePy_id kv.1 (goodStr_not_mem kv.1 hgk '%' (by decide)),
    unquotePy_id kv.2 (goodStr_not_mem kv.2 hgv '%' (by decide))]

theorem rescanQual_serialized (k v : Str) (hk : '=' ∉ k) (hv : '=' ∉ v)
    (hvne : v ≠ []) : rescanQual (k ++ '=' :: v) = false := by
  unfold rescanQual
  rw [pySplitAll_append '=' k v hk, pySplitAll_no_sep '=' v hv]
  simp [hvne]

theorem serializePairsStr_ne_nil (ps : List (Str × Str)) (hne : ps ≠ []) :
    serializePairsStr ps ≠ [] := by
  cases ps with
  | nil => exact absurd rfl hne
  | cons kv rest =>
    unfold serializePairsStr
    rw [List.map_cons]
    exact joinSep_ne_nil _ _ _ (by simp)

theorem originalOf_serialize (ps : List (Str × Str)) (hne : ps ≠ [])
    (hnd : (ps.map Prod.fst).Nodup)
    (hg : ∀ kv ∈ ps, goodStr kv.1 ∧ goodStr kv.2) :
    originalOf (serializePairsStr ps) = ps.map fun kv => (kv.1, PyVal.vstr kv.2) := by
  have hqsl := parse_qsl_serialize ps hne hg
  have hsegs : pySplitAll '&' (serializePairsStr ps) =
      ps.map fun kv => kv.1 ++ '=' :: kv.2 := by
    unfold serializePairsStr
    exact pySplitAll_joinSep '&' _ (by simpa using hne)
      (fun x hx => by
        rcases List.mem_map.1 hx with ⟨kv, hkv, rfl⟩
        exact not_mem_seg kv.1 kv.2 (hg kv hkv).1 (hg kv hkv).2 '&' (by decide) (by decide))
  unfold originalOf query_paramsF
  rw [parse_qs_of_nodup _ (by rw [hqsl]; exact hnd), hqsl, hsegs]
  rw [rescanFold_noop _ _ (fun s hs => by
    rcases List.mem_map.1 hs with ⟨kv, hkv, rfl⟩
    exact rescanQual_serialized kv.1 kv.2
      (goodStr_not_mem kv.1 (hg kv hkv).1 '=' (by decide))
      (goodStr_not_mem kv.2 (hg kv hkv).2 '=' (by decide))
      (hg kv hkv).2.1)]
  simp [flattenParams, List.map_map, flatten1]

theorem serializeParams_vstr (ps : List (Str × Str)) :
    serializeParams (ps.map fun kv => (kv.1, PyVal.vstr kv.2)) = serializePairsStr ps := by
  unfold serializeParams serializePairsStr
  rw [List.map_map]
  rfl

theorem payloadAt_ne_nil (ps : List (Str × Str)) (k : Str) (hne : ps ≠ []) :
    payloadAt ps k ≠ [] := by
  simp [payloadAt, hne]

theorem alSet_payload_map (ps : List (Str × Str)) (k : Str)
    (hnd : (ps.map Prod.fst).Nodup) (hk : k ∈ ps.map Prod.fst) :
    alSet (ps.map fun kv => (kv.1, PyVal.vstr kv.2)) k payloadV =
      (payloadAt ps k).map fun kv => (kv.1, PyVal.vstr kv.2) := by
  have hkeys : ((ps.map fun kv => (kv.1, PyVal.vstr kv.2)).map Prod.fst) =
      ps.map Prod.fst := by
    rw [List.map_map]; rfl
  rw [alSet_eq_map _ _ _ (by rw [hkeys]; exact hnd) (by rw [hkeys]; exact hk)]
  unfold payloadAt
  rw [List.map_map, List.map_map]
  apply List.map_congr_left
  intro kv _
  by_cases h : kv.1 = k
  · simp [Function.comp, h, payloadV]
  · simp [Function.comp, h]

/-- The full conclusion for canonical queries: the URL decomposes
around its query, and check_reflection emits exactly one line per pair,
each the URL with that pair replaced by the placeholder pair. -/
theorem lines_canonical (url : Str) (p : ParseParts) (ps : List (Str × Str))
    (hp : urlparsePy url = .ok p)
    (hq : p.query = serializePairsStr ps)
    (hne : ps ≠ [])
    (hnd : (ps.map Prod.fst).Nodup)
    (hg : ∀ kv ∈ ps, goodStr kv.1 ∧ goodStr kv.2)
    (hrt : urlunparsePy p = url) :
    url = baseOf p ++ '?' :: (serializePairsStr ps ++ fragTail p) ∧
    (check_reflection url).1 =
      ps.map (fun kv =>
        baseOf p ++ '?' :: (serializePairsStr (payloadAt ps kv.1) ++ fragTail p)) ∧
    (check_reflection url).2 = true := by
  have horig : originalOf p.query = ps.map fun kv => (kv.1, PyVal.vstr kv.2) := by
    rw [hq]; exact originalOf_serialize ps hne hnd hg
  have hself : setQuery p p.query = p := by cases p; rfl
  have hurl : url = baseOf p ++ '?' :: (serializePairsStr ps ++ fragTail p) := by
    rw [← hrt, ← hself, hq]
    exact urlunparse_setQuery p _ (serializePairsStr_ne_nil ps hne)
  refine ⟨hurl, ?_, ?_⟩
  · rw [check_reflection_eq url p hp, horig, List.map_map]
    apply List.map_congr_left
    intro kv hkv
    have hk : kv.1 ∈ ps.map Prod.fst := List.mem_map.2 ⟨kv, hkv, rfl⟩
    show buildLine p (alSet (ps.map fun kv => (kv.1, PyVal.vstr kv.2)) kv.1 payloadV) = _
    rw [alSet_payload_map ps kv.1 hnd hk]
    unfold buildLine
    rw [serializeParams_vstr]
    exact urlunparse_setQuery p _
      (serializePairsStr_ne_nil _ (payloadAt_ne_nil ps kv.1 hne))
  · rw [check_reflection_eq url p hp]

/-! ### Duplicate keys and placeholder filtering -/

theorem alGet_parse_qs_serialize (ps : List (Str × Str)) (k : Str) (hne : ps ≠ [])
    (hg : ∀ kv ∈ ps, goodStr kv.1 ∧ goodStr kv.2) (hk : k ∈ ps.map Prod.fst) :
    alGet (parse_qs (serializePairsStr ps)) k = some (valsOf ps k) := by
  unfold parse_qs
  rw [alGet_groupFold, parse_qsl_serialize ps hne hg]
  simp [alGet, valsOf_ne_nil ps k hk]

theorem alGet_originalOf_serialize (ps : List (Str × Str)) (k : Str) (hne : ps ≠ [])
    (hg : ∀ kv ∈ ps, goodStr kv.1 ∧ goodStr kv.2) (hk : k ∈ ps.map Prod.fst) :
    alGet (originalOf (serializePairsStr ps)) k =
      some (PyVal.vstr (firstValOf ps k)) := by
  have hsegs : pySplitAll '&' (serializePairsStr ps) =
      ps.map fun kv => kv.1 ++ '=' :: kv.2 := by
    unfold serializePairsStr
    exact pySplitAll_joinSep '&' _ (by simpa using hne)
      (fun x hx => by
        rcases List.mem_map.1 hx with ⟨kv, hkv, rfl⟩
        exact not_mem_seg kv.1 kv.2 (hg kv hkv).1 (hg kv hkv).2 '&' (by decide) (by decide))
  unfold originalOf query_paramsF
  rw [hsegs, rescanFold_noop _ _ (fun s hs => by
    rcases List.mem_map.1 hs with ⟨kv, hkv, rfl⟩
    exact rescanQual_serialized kv.1 kv.2
      (goodStr_not_mem kv.1 (hg kv hkv).1 '=' (by decide))
      (goodStr_not_mem kv.2 (hg kv hkv).2 '=' (by decide))
      (hg kv hkv).2.1)]
  rw [alGet_flattenParams, alGet_mapVal, alGet_parse_qs_serialize ps k hne hg hk]
  rfl

theorem nodup_keys_originalOf (q : Str) :
    ((originalOf q).map Prod.fst).Nodup := by
  unfold originalOf
  rw [mapFst_flattenParams]
  unfold query_paramsF
  apply nodup_rescanFold
  have : ((parse_qs q).map fun kv => (kv.1, PyVal.vlist kv.2)).map Prod.fst =
      (parse_qs q).map Prod.fst := by
    rw [List.map_map]; rfl
  rw [this]
  exact nodup_keys_groupFold (parse_qsl q) [] (by simp)

theorem payloadAt_notMem (ps : List (Str × Str)) (k : Str)
    (h : k ∉ ps.map Prod.fst) : payloadAt ps k = ps := by
  induction ps with
  | nil => rfl
  | cons kv rest ih =>
    simp only [List.map_cons, List.mem_cons, not_or] at h
    simp only [payloadAt, List.map_cons, if_neg (Ne.symm h.1 : ¬ kv.1 = k)]
    have := ih h.2
    unfold payloadAt at this
    rw [this]

theorem filter_payload_nil (ps : List (Str × Str))
    (h : ∀ kv ∈ ps, kv.2 ≠ payloadStr) :
    ps.filter (fun kv => kv.2 == payloadStr) = [] := by
  induction ps with
  | nil => rfl
  | cons kv rest ih =>
    rw [List.filter_cons, if_neg (by simp [h kv (by simp)])]
    exact ih fun x hx => h x (List.mem_cons_of_mem kv hx)

theorem filter_payloadAt (ps : List (Str × Str)) (k : Str)
    (hnd : (ps.map Prod.fst).Nodup) (hk : k ∈ ps.map Prod.fst)
    (hnp : ∀ kv ∈ ps, kv.2 ≠ payloadStr) :
    (payloadAt ps k).filter (fun kv => kv.2 == payloadStr) = [(k, payloadStr)] := by
  induction ps with
  | nil => simp at hk
  | cons kv rest ih =>
    simp only [List.map_cons, List.nodup_cons] at hnd
    by_cases h : kv.1 = k
    · simp only [payloadAt, List.map_cons, if_pos h]
      rw [List.filter_cons, if_pos (by simp)]
      have hrest : payloadAt rest k = rest :=
        payloadAt_notMem rest k (h ▸ hnd.1)
      have : (payloadAt rest k).filter (fun kv => kv.2 == payloadStr) = [] := by
        rw [hrest]
        exact filter_payload_nil rest fun x hx => hnp x (List.mem_cons_of_mem kv hx)
      unfold payloadAt at this
      rw [this, h]
    · have hkr : k ∈ rest.map Prod.fst := by
        rcases List.mem_map.1 hk with ⟨x, hx, hxk⟩
        rcases List.mem_cons.1 hx with rfl | hx2
        · exact absurd hxk h
        · exact List.mem_map.2 ⟨x, hx2, hxk⟩
      simp only [payloadAt, List.map_cons, if_neg h]
      rw [List.filter_cons, if_neg (by simp [hnp kv (by simp)])]
      have := ih hnd.2 hkr fun x hx => hnp x (List.mem_cons_of_mem kv hx)
      unfold payloadAt at this
      rw [this]

theorem goodStr_payload : goodStr payloadStr := by
  constructor
  · decide
  · decide

theorem good_payloadAt (ps : List (Str × Str)) (k : Str)
    (hg : ∀ kv ∈ ps, goodStr kv.1 ∧ goodStr kv.2) :
    ∀ kv ∈ payloadAt ps k, goodStr kv.1 ∧ goodStr kv.2 := by
  intro kv hkv
  rcases List.mem_map.1 hkv with ⟨kv0, hkv0, rfl⟩
  by_cases h : kv0.1 = k
  · simp only [if_pos h]
    exact ⟨(hg kv0 hkv0).1, goodStr_payload⟩
  · simp only [if_neg h]
    exact hg kv0 hkv0

/-! ### The distributor as list algebra -/

theorem processedTotal_eq_length (l : List Str) : processedTotal l = l.length := by
  induction l with
  | nil => rfl
  | cons x xs ih =>
    simp only [processedTotal, processedDelta, List.map_cons, List.sum_cons,
      List.length_cons] at ih ⊢
    omega

theorem processedTotal_append (a b : List Str) :
    processedTotal (a ++ b) = processedTotal a + processedTotal b := by
  simp [processedTotal]

theorem sum_processedTotal_flatten (chunks : List (List Str)) :
    (chunks.map processedTotal).sum = processedTotal chunks.flatten := by
  induction chunks with
  | nil => rfl
  | cons c cs ih => simp [processedTotal_append, ih]

theorem workerLines_append (a b : List Str) :
    workerLines (a ++ b) = workerLines a ++ workerLines b := by
  simp [workerLines]

theorem workerLines_flatten (chunks : List (List Str)) :
    (chunks.map workerLines).flatten = workerLines chunks.flatten := by
  induction chunks with
  | nil => rfl
  | cons c cs ih => simp [workerLines_append, ih]

theorem flatten_strideChunks (urls : List Str) (t : Nat) :
    (strideChunks urls t).flatten = urls :=
  flatten_chunksOf _ urls

theorem process_urls_output (urls : List Str) (t : Nat) :
    (process_urls urls t).1 = workerLines urls := by
  show ((strideChunks urls t).map workerLines).flatten = workerLines urls
  rw [workerLines_flatten, flatten_strideChunks]

theorem process_urls_count (urls : List Str) (t : Nat) :
    (process_urls urls t).2 = processedTotal urls := by
  show ((strideChunks urls t).map processedTotal).sum = processedTotal urls
  rw [sum_processedTotal_flatten, flatten_strideChunks]

theorem length_workerLines (urls : List Str) :
    (workerLines urls).length =
      (urls.map fun u => ((check_reflection u).1).length).sum := by
  induction urls with
  | nil => rfl
  | cons u us ih =>
    have h : workerLines (u :: us) = (check_reflection u).1 ++ workerLines us := by
      simp [workerLines]
    rw [h, List.length_append, ih, List.map_cons, List.sum_cons]

theorem count_keys_one (l : List Str) (k : Str) (hnd : l.Nodup) (hk : k ∈ l) :
    l.count k = 1 := by
  induction l with
  | nil => simp at hk
  | cons x xs ih =>
    rw [List.count_cons]
    simp only [List.nodup_cons] at hnd
    rcases List.mem_cons.1 hk with rfl | hk2
    · rw [List.count_eq_zero_of_not_mem hnd.1]
      simp
    · rw [ih hnd.2 hk2]
      have hxk : ¬ x == k := by
        simp only [beq_iff_eq]
        intro he
        exact hnd.1 (he ▸ hk2)
      simp [hxk]

/-! ### Claim theorems -/

/-- C1 counterexample: on the URL with query a=1+2 and b=2 the claim
fails as stated.  The line generated for target b carries a=1 2, since
parse_qs decodes the plus sign to a space, so that line is not the
original URL with only the b value replaced: no raw parameter name
gives it the claimed one-value-replaced form. -/
theorem C1_counterexample :
    ¬ (∀ line ∈ (check_reflection exUrlPlus).1,
        ∃ k ∈ rawParamNames exUrlPlus, line = specReplaceParam exUrlPlus k) := by
  decide

/-- C1 as amended: for every URL that urlparse accepts, whose query is
an ampersand-joined list of key equals value pairs with distinct
nonempty keys and nonempty values over characters free of the
ampersand, equals, percent and plus metacharacters, and that urlunparse
reproduces verbatim, the Expander emits exactly one line per pair, the
URL decomposes as base, question mark, query, fragment tail, and each
line is that decomposition with exactly the one targeted value replaced
by the placeholder with every other character unchanged. -/
theorem C1_expander_lines (url : Str) (p : ParseParts) (ps : List (Str × Str))
    (hp : urlparsePy url = .ok p)
    (hq : p.query = serializePairsStr ps)
    (hne : ps ≠ [])
    (hnd : (ps.map Prod.fst).Nodup)
    (hg : ∀ kv ∈ ps, goodStr kv.1 ∧ goodStr kv.2)
    (hrt : urlunparsePy p = url) :
    url = baseOf p ++ '?' :: (serializePairsStr ps ++ fragTail p) ∧
    (check_reflection url).1 =
      ps.map (fun kv =>
        baseOf p ++ '?' :: (serializePairsStr (payloadAt ps kv.1) ++ fragTail p)) ∧
    (check_reflection url).1.length = ps.length ∧
    (check_reflection url).2 = true := by
  obtain ⟨h1, h2, h3⟩ := lines_canonical url p ps hp hq hne hnd hg hrt
  exact ⟨h1, h2, by rw [h2, List.length_map], h3⟩

/-- Witness for C1 at the URL with query a=1 and b=2. -/
theorem C1_expander_lines_witness :
    exUrl = baseOf exParts ++ '?' :: (serializePairsStr exPairs ++ fragTail exParts) ∧
    (check_reflection exUrl).1 =
      exPairs.map (fun kv =>
        baseOf exParts ++ '?' ::
          (serializePairsStr (payloadAt exPairs kv.1) ++ fragTail exParts)) ∧
    (check_reflection exUrl).1.length = exPairs.length ∧
    (check_reflection exUrl).2 = true :=
  C1_expander_lines exUrl exParts exPairs (by rfl) (by rfl) (by decide) (by decide)
    (by decide) (by rfl)

/-- C2: for every URL list and worker count at least one, the stride
chunks concatenate to exactly the input list, the distributor counts
every URL as processed exactly once, and the total output equals one
sequential pass over the whole list. -/
theorem C2_distributor (urls : List Str) (t : Nat) (ht : 1 ≤ t) :
    (strideChunks urls t).flatten = urls ∧
    (process_urls urls t).2 = processedTotal urls ∧
    (process_urls urls t).1 = workerLines urls :=
  ⟨flatten_strideChunks urls t, process_urls_count urls t, process_urls_output urls t⟩

/-- Witness for C2 on three URLs with two workers. -/
theorem C2_distributor_witness :
    (strideChunks [exUrl, exUrlX, exUrlDup] 2).flatten = [exUrl, exUrlX, exUrlDup] ∧
    (process_urls [exUrl, exUrlX, exUrlDup] 2).2 =
      processedTotal [exUrl, exUrlX, exUrlDup] ∧
    (process_urls [exUrl, exUrlX, exUrlDup] 2).1 =
      workerLines [exUrl, exUrlX, exUrlDup] :=
  C2_distributor [exUrl, exUrlX, exUrlDup] 2 (by decide)

/-- C3: the run output is the same list of lines for any two worker
counts, its length is the sum of the per-URL line counts, and for a URL
that parses the line count is the parameter count of its query map. -/
theorem C3_output_independent (urls : List Str) (t1 t2 : Nat)
    (h1 : 1 ≤ t1) (h2 : 1 ≤ t2) (u : Str) (p : ParseParts)
    (hu : urlparsePy u = .ok p) :
    (process_urls urls t1).1 = (process_urls urls t2).1 ∧
    (process_urls urls t1).1.length =
      (urls.map fun x => ((check_reflection x).1).length).sum ∧
    ((check_reflection u).1).length = (originalOf p.query).length := by
  refine ⟨?_, ?_, ?_⟩
  · rw [process_urls_output, process_urls_output]
  · rw [process_urls_output, length_workerLines]
  · rw [check_reflection_eq u p hu]
    simp

/-- Witness for C3 on two URLs with one and two workers. -/
theorem C3_output_independent_witness :
    (process_urls [exUrl, exUrlX] 1).1 = (process_urls [exUrl, exUrlX] 2).1 ∧
    (process_urls [exUrl, exUrlX] 1).1.length =
      ([exUrl, exUrlX].map fun x => ((check_reflection x).1).length).sum ∧
    ((check_reflection exUrl).1).length = (originalOf exParts.query).length :=
  C3_output_independent [exUrl, exUrlX] 1 2 (by decide) (by decide) exUrl exParts (by rfl)

/-- C4: the code contradicts the claim.  A URL with no query string at
all still produces one output line, with an empty parameter name,
because splitting the empty query on ampersands yields one empty field
which the re-scan loop stores as a parameter; the URL is still counted
as processed, and parse_qsl itself finds no parameter in the empty
query. -/
theorem C4_code_bug_eval :
    check_reflection (str "http://example.com/page") =
      ([str "http://example.com/page?={payload}"], true) ∧
    parse_qsl [] = [] ∧
    processedDelta (str "http://example.com/page") = 1 := by
  refine ⟨by decide, rfl, rfl⟩

/-- C5: a raw query field with no equals sign or an empty value is kept
as a parameter whose value is the empty string: it reads back as empty
from the parameter map, stays empty in the map serialized for every
other target, carries the placeholder when targeted, and the URL with
bare query x yields exactly the line with x={payload}. -/
theorem C5_empty_param (url : Str) (p : ParseParts) (hp : urlparsePy url = .ok p)
    (seg t : Str) (hs : seg ∈ pySplitAll '&' p.query) (hq : rescanQual seg = true)
    (hne : t ≠ rescanKey seg) :
    alGet (originalOf p.query) (rescanKey seg) = some (PyVal.vstr []) ∧
    (rescanKey seg, PyVal.vstr []) ∈ originalOf p.query ∧
    alGet (alSet (originalOf p.query) t payloadV) (rescanKey seg) =
      some (PyVal.vstr []) ∧
    alGet (alSet (originalOf p.query) (rescanKey seg) payloadV) (rescanKey seg) =
      some payloadV ∧
    check_reflection exUrlX = ([str "http://example.com/page?x={payload}"], true) := by
  have h1 : alGet (originalOf p.query) (rescanKey seg) = some (PyVal.vstr []) := by
    unfold originalOf query_paramsF
    rw [alGet_flattenParams, rescanFold_mem (pySplitAll '&' p.query) _ seg hs hq]
    rfl
  refine ⟨h1, alGet_mem _ _ _ h1, ?_, alGet_alSet_self _ _ _, by decide⟩
  rw [alGet_alSet_ne _ _ _ _ hne, h1]

/-- Witness for C5 at the URL with bare query x. -/
theorem C5_empty_param_witness :
    alGet (originalOf exPartsX.query) (rescanKey (str "x")) = some (PyVal.vstr []) ∧
    (rescanKey (str "x"), PyVal.vstr []) ∈ originalOf exPartsX.query ∧
    alGet (alSet (originalOf exPartsX.query) (str "t") payloadV) (rescanKey (str "x")) =
      some (PyVal.vstr []) ∧
    alGet (alSet (originalOf exPartsX.query) (rescanKey (str "x")) payloadV)
      (rescanKey (str "x")) = some payloadV ∧
    check_reflection exUrlX = ([str "http://example.com/page?x={payload}"], true) :=
  C5_empty_param exUrlX exPartsX (by rfl) (str "x") (str "t") (by decide) (by decide)
    (by decide)

/-- C6: a URL urlparse rejects is caught inside check_reflection, which
returns no lines and reports its try block failed; the lines of a run
containing it are exactly the lines of the other URLs, and the
processed counter still counts it exactly once. -/
theorem C6_per_url_errors (url e : Str) (he : urlparsePy url = .error e)
    (us vs : List Str) :
    check_reflection url = ([], false) ∧
    workerLines (us ++ url :: vs) = workerLines us ++ workerLines vs ∧
    processedTotal (us ++ url :: vs) =
      processedTotal us + processedDelta url + processedTotal vs := by
  have h1 : check_reflection url = ([], false) := by
    simp [check_reflection, he]
  refine ⟨h1, ?_, ?_⟩
  · rw [workerLines_append]
    have h2 : workerLines (url :: vs) = workerLines vs := by
      have h3 : workerLines (url :: vs) = (check_reflection url).1 ++ workerLines vs := by
        simp [workerLines]
      rw [h3, h1]
      rfl
    rw [h2]
  · rw [processedTotal_append]
    have h4 : processedTotal (url :: vs) = processedDelta url + processedTotal vs := by
      simp [processedTotal]
    rw [h4]
    omega

/-- Witness for C6 at the URL with a mismatched bracket. -/
theorem C6_per_url_errors_witness :
    check_reflection exUrlBad = ([], false) ∧
    workerLines ([exUrl] ++ exUrlBad :: [exUrlX]) =
      workerLines [exUrl] ++ workerLines [exUrlX] ∧
    processedTotal ([exUrl] ++ exUrlBad :: [exUrlX]) =
      processedTotal [exUrl] + processedDelta exUrlBad + processedTotal [exUrlX] :=
  C6_per_url_errors exUrlBad (str "Invalid IPv6 URL") (by rfl) [exUrl] [exUrlX]

/-- C7 counterexample: with query a=1 and a=2 and b=3 the stored value
for a is 1, the first occurrence, not the later occurrence 2 the claim
predicts, and the emitted line for target b carries a=1. -/
theorem C7_counterexample :
    (check_reflection exUrlDup).1 =
      [str "http://example.com/page?a={payload}&b=3",
       str "http://example.com/page?a=1&b={payload}"] ∧
    alGet (originalOf (str "a=1&a=2&b=3")) (str "a") = some (PyVal.vstr (str "1")) ∧
    ¬ alGet (originalOf (str "a=1&a=2&b=3")) (str "a") = some (PyVal.vstr (str "2")) := by
  refine ⟨by decide, by decide, by decide⟩

/-- C7 as amended: for a canonical query with possibly repeated keys,
the parameter map stores a single entry for a repeated name and its
value is the FIRST occurrence in the query string, because the
flattening step takes the head of the collected value list; that value
is what every generated line serializes when the name is not the
target. -/
theorem C7_first_value (url : Str) (p : ParseParts) (ps : List (Str × Str))
    (k t : Str) (hp : urlparsePy url = .ok p)
    (hq : p.query = serializePairsStr ps) (hne : ps ≠ [])
    (hg : ∀ kv ∈ ps, goodStr kv.1 ∧ goodStr kv.2)
    (hk : k ∈ ps.map Prod.fst) (hne2 : t ≠ k) :
    ((originalOf p.query).map Prod.fst).count k = 1 ∧
    alGet (originalOf p.query) k = some (PyVal.vstr (firstValOf ps k)) ∧
    alGet (alSet (originalOf p.query) t payloadV) k =
      some (PyVal.vstr (firstValOf ps k)) := by
  have h2 : alGet (originalOf p.query) k = some (PyVal.vstr (firstValOf ps k)) := by
    rw [hq]
    exact alGet_originalOf_serialize ps k hne hg hk
  have hmem : k ∈ (originalOf p.query).map Prod.fst := alGet_mem_keys _ _ _ h2
  refine ⟨?_, h2, ?_⟩
  · exact count_keys_one _ k (nodup_keys_originalOf p.query) hmem
  · rw [alGet_alSet_ne _ _ _ _ hne2, h2]

/-- Witness for C7 at the URL with the duplicated parameter a. -/
theorem C7_first_value_witness :
    ((originalOf exPartsDup.query).map Prod.fst).count (str "a") = 1 ∧
    alGet (originalOf exPartsDup.query) (str "a") =
      some (PyVal.vstr (firstValOf exPairsDup (str "a"))) ∧
    alGet (alSet (originalOf exPartsDup.query) (str "b") payloadV) (str "a") =
      some (PyVal.vstr (firstValOf exPairsDup (str "a"))) :=
  C7_first_value exUrlDup exPartsDup exPairsDup (str "a") (str "b") (by rfl) (by rfl)
    (by decide) (by decide) (by decide) (by decide)

/-- C8 counterexample: when an original parameter value is already the
placeholder, the line generated for the other parameter re-parses with
two placeholder-valued keys, so the placeholder key does not identify
the target. -/
theorem C8_counterexample :
    (check_reflection exUrlPayload).1 =
      [str "http://example.com/p?a={payload}&b=2",
       str "http://example.com/p?a={payload}&b={payload}"] ∧
    ((parse_qsl (str "a={payload}&b={payload}")).filter
        (fun kv => kv.2 == payloadStr)).map Prod.fst = [str "a", str "b"] ∧
    ¬ ((parse_qsl (str "a={payload}&b={payload}")).filter
        (fun kv => kv.2 == payloadStr)).map Prod.fst = [str "b"] := by
  refine ⟨by decide, by decide, by decide⟩

/-- C8 as amended: for a canonical query with distinct keys none of
whose values is the placeholder, the query carried by the generated
line for target k re-parses to exactly one placeholder-valued key, and
that key is k. -/
theorem C8_roundtrip (url : Str) (p : ParseParts) (ps : List (Str × Str)) (k : Str)
    (hp : urlparsePy url = .ok p) (hq : p.query = serializePairsStr ps)
    (hne : ps ≠ []) (hnd : (ps.map Prod.fst).Nodup)
    (hg : ∀ kv ∈ ps, goodStr kv.1 ∧ goodStr kv.2)
    (hrt : urlunparsePy p = url) (hk : k ∈ ps.map Prod.fst)
    (hnp : ∀ kv ∈ ps, kv.2 ≠ payloadStr) :
    (check_reflection url).1 =
      ps.map (fun kv =>
        baseOf p ++ '?' :: (serializePairsStr (payloadAt ps kv.1) ++ fragTail p)) ∧
    ((parse_qsl (serializePairsStr (payloadAt ps k))).filter
        (fun kv => kv.2 == payloadStr)).map Prod.fst = [k] := by
  refine ⟨(lines_canonical url p ps hp hq hne hnd hg hrt).2.1, ?_⟩
  rw [parse_qsl_serialize (payloadAt ps k) (payloadAt_ne_nil ps k hne)
    (good_payloadAt ps k hg)]
  rw [filter_payloadAt ps k hnd hk hnp]
  rfl

/-- Witness for C8 at the URL with query a=1 and b=2, target b. -/
theorem C8_roundtrip_witness :
    (check_reflection exUrl).1 =
      exPairs.map (fun kv =>
        baseOf exParts ++ '?' ::
          (serializePairsStr (payloadAt exPairs kv.1) ++ fragTail exParts)) ∧
    ((parse_qsl (serializePairsStr (payloadAt exPairs (str "b")))).filter
        (fun kv => kv.2 == payloadStr)).map Prod.fst = [str "b"] :=
  C8_roundtrip exUrl exParts exPairs (str "b") (by rfl) (by rfl) (by decide)
    (by decide) (by decide) (by rfl) (by decide) (by decide)

/-- C9 counterexample: nine URLs with five requested workers launch
nine workers, exceeding the request by four, so the launched count is
not within one of the request. -/
theorem C9_counterexample :
    numWorkers exNine 5 = 9 ∧ ¬ numWorkers exNine 5 ≤ 5 + 1 := by
  decide

/-- C9 as amended: the launched worker count is the ceiling of the list
length over the stride; it exceeds the request t only when t does not
divide the length; and it is within t plus one whenever the remainder
of the length by t is at most the quotient, though in general the
excess can be larger than one. -/
theorem C9_worker_count (urls : List Str) (t : Nat) (ht : 1 ≤ t) :
    numWorkers urls t =
      (urls.length + max 1 (urls.length / t) - 1) / max 1 (urls.length / t) ∧
    (t < numWorkers urls t → ¬ t ∣ urls.length) ∧
    (urls.length % t ≤ urls.length / t → numWorkers urls t ≤ t + 1) := by
  have hW : numWorkers urls t =
      (urls.length + max 1 (urls.length / t) - 1) / max 1 (urls.length / t) :=
    length_strideChunks urls t
  refine ⟨hW, ?_, ?_⟩
  · intro hlt hdvd
    rcases Nat.eq_zero_or_pos urls.length with hn0 | hn1
    · rw [hW, hn0] at hlt
      simp at hlt
    · obtain ⟨m, hm⟩ := hdvd
      have hm1 : 1 ≤ m := by
        rcases Nat.eq_zero_or_pos m with rfl | h
        · omega
        · exact h
      have hqm : urls.length / t = m := by
        rw [hm, Nat.mul_div_cancel_left m (show 0 < t by omega)]
      have hmax : max 1 (urls.length / t) = m := by rw [hqm]; omega
      rw [hW, hmax, hm] at hlt
      have hcomm : t * m = m * t := Nat.mul_comm t m
      have heq : t * m + m - 1 = m * t + (m - 1) := by omega
      rw [heq, Nat.mul_add_div (show 0 < m by omega),
        Nat.div_eq_of_lt (show m - 1 < m by omega)] at hlt
      omega
  · intro hr
    rcases Nat.eq_zero_or_pos urls.length with hn0 | hn1
    · rw [hW, hn0]
      simp
    · have hq1 : 1 ≤ urls.length / t := by
        by_contra hcon
        have hq0 : urls.length / t = 0 := by omega
        have hlt2 : urls.length < t := by
          by_contra hge
          have h1t : 1 ≤ urls.length / t := (Nat.one_le_div_iff (by omega)).2 (by omega)
          omega
        have hmod : urls.length % t = urls.length := Nat.mod_eq_of_lt hlt2
        omega
      have hmax : max 1 (urls.length / t) = urls.length / t := by omega
      rw [hW, hmax]
      have hfin : (urls.length + urls.length / t - 1) / (urls.length / t) < t + 2 := by
        rw [Nat.div_lt_iff_lt_mul (show 0 < urls.length / t by omega)]
        have hdm := Nat.div_add_mod urls.length t
        have hexp : (t + 2) * (urls.length / t) =
            t * (urls.length / t) + 2 * (urls.length / t) := by ring
        rw [hexp]
        generalize hA : t * (urls.length / t) = A at hdm
        generalize hB : urls.length / t = B at hdm hr hq1 ⊢
        generalize hR : urls.length % t = R at hdm hr
        omega
      exact Nat.lt_succ_iff.mp hfin

/-- Witness for C9 on the nine URLs with five requested workers. -/
theorem C9_worker_count_witness :
    numWorkers exNine 5 =
      (exNine.length + max 1 (exNine.length / 5) - 1) / max 1 (exNine.length / 5) ∧
    (5 < numWorkers exNine 5 → ¬ 5 ∣ exNine.length) ∧
    (exNine.length % 5 ≤ exNine.length / 5 → numWorkers exNine 5 ≤ 5 + 1) :=
  C9_worker_count exNine 5 (by decide)

/-- C10: for every URL that urlparse accepts, the emitted lines are the
serializations of the original parameter map with exactly one value
overwritten in place: every line keeps the same parameter names in the
same left-to-right order, the targeted parameter keeps its position and
carries the placeholder, and every other parameter keeps its value. -/
theorem C10_frame (url : Str) (p : ParseParts) (hp : urlparsePy url = .ok p)
    (k t : Str) (hk : k ∈ (originalOf p.query).map Prod.fst) (hne : t ≠ k) :
    (check_reflection url).1 =
      (originalOf p.query).map
        (fun kv => buildLine p (alSet (originalOf p.query) kv.1 payloadV)) ∧
    (check_reflection url).2 = true ∧
    (alSet (originalOf p.query) k payloadV).map Prod.fst =
      (originalOf p.query).map Prod.fst ∧
    alGet (alSet (originalOf p.query) k payloadV) k = some payloadV ∧
    alGet (alSet (originalOf p.query) k payloadV) t = alGet (originalOf p.query) t := by
  refine ⟨?_, ?_, mapFst_alSet _ _ _ hk, alGet_alSet_self _ _ _, ?_⟩
  · rw [check_reflection_eq url p hp]
  · rw [check_reflection_eq url p hp]
  · exact alGet_alSet_ne _ _ _ _ (Ne.symm hne)

/-- Witness for C10 at the URL with query a=1 and b=2, target a. -/
theorem C10_frame_witness :
    (check_reflection exUrl).1 =
      (originalOf exParts.query).map
        (fun kv => buildLine exParts (alSet (originalOf exParts.query) kv.1 payloadV)) ∧
    (check_reflection exUrl).2 = true ∧
    (alSet (originalOf exParts.query) (str "a") payloadV).map Prod.fst =
      (originalOf exParts.query).map Prod.fst ∧
    alGet (alSet (originalOf exParts.query) (str "a") payloadV) (str "a") =
      some payloadV ∧
    alGet (alSet (originalOf exParts.query) (str "a") payloadV) (str "b") =
      alGet (originalOf exParts.query) (str "b") :=
  C10_frame exUrl exParts (by rfl) (str "a") (str "b") (by decide) (by decide)

end XSSRecon
